import Mathlib

/-!
Verification of the neighbor-finding engine of the `ss` particle-simulation
repository.

The brute-force all-pairs finder is embedded from
`TP1/cim-implementation/src/main.rs`: `Particle`, `ParticlesData`,
`NeighborMap` (a `HashMap<ID, Vec<ID>>`, modelled as an association list in
insertion order), `NeighborMap::add_pair`, the `Display` instance and
`ParticlesData::generate_neighbor_map`.  Rust `f64` coordinates are modelled
as rationals; the comparison `distance(p1,p2) - r1 - r2 <= r_c` is expressed
without square roots via the equivalence
`sqrt d ≤ s ↔ (0 ≤ s ∧ d ≤ s^2)` (proved below as `is_neighbor_iff_sqrt`),
which keeps every definition executable.

The spatial cell-index engine (crate `cim`, `CimNeighborFinder`) is not part
of the sources; it is modelled from the specification (grid binning by
`floor(x / cell_side)`, the half-stencil `(1,0),(0,1),(1,1),(-1,1)`, skipping
of out-of-range cells in the non-cyclic case, and the same distance
predicate).
-/

namespace SS

abbrev ID := Nat

/-- Rust `struct Particle { id, position: Vector2<f64>, radius: f64 }`,
with `f64` modelled as `ℚ`. -/
structure Particle where
  id : ID
  position : ℚ × ℚ
  radius : ℚ
  deriving DecidableEq, Repr

/-- Rust `struct ParticlesData { n, l, m, r_c, particles }`. -/
structure ParticlesData where
  n : Nat
  l : ℚ
  m : Nat
  r_c : ℚ
  particles : List Particle
  deriving DecidableEq, Repr

/-- Rust `struct NeighborMap { map: HashMap<ID, Vec<ID>> }`, modelled as an
association list; a fresh key is appended at the end (iteration order of the
`HashMap` is unspecified, so no claim depends on the entry order). -/
abbrev NeighborMap := List (ID × List ID)

/-- Rust `self.map.entry(k).or_default().push(v)`: push `v` onto the vector
stored at key `k`, inserting an empty vector first when `k` is absent. -/
def pushEntry : NeighborMap → ID → ID → NeighborMap
  | [], k, v => [(k, [v])]
  | (k', ns) :: rest, k, v =>
    if k' = k then (k', ns ++ [v]) :: rest else (k', ns) :: pushEntry rest k v

/-- Rust `NeighborMap::add_pair`: two unconditional pushes. -/
def add_pair (m : NeighborMap) (p1 p2 : ID) : NeighborMap :=
  pushEntry (pushEntry m p1 p2) p2 p1

/-- The query surface `get_neighbors(map, id)` of the spec (§6): the vector
stored at `id`, empty when `id` is unknown to the map. -/
def get_neighbors : NeighborMap → ID → List ID
  | [], _ => []
  | (k, ns) :: rest, i => if k = i then ns else get_neighbors rest i

/-- Membership of the (ordered) edge `(i, j)` in the map. -/
def pairMem (m : NeighborMap) (i j : ID) : Prop :=
  j ∈ get_neighbors m i

instance (m : NeighborMap) (i j : ID) : Decidable (pairMem m i j) := by
  unfold pairMem; infer_instance

/-- Squared euclidean distance of two points. -/
def dist2 (p q : ℚ × ℚ) : ℚ :=
  (p.1 - q.1) ^ 2 + (p.2 - q.2) ^ 2

/-- The distance predicate of `generate_neighbor_map`
(`p1.position.distance(p2.position) - p1.radius - p2.radius <= self.r_c`),
written without the square root: `sqrt d - r1 - r2 ≤ rc` iff
`0 ≤ rc + r1 + r2` and `d ≤ (rc + r1 + r2)^2` (see `is_neighbor_iff_sqrt`). -/
def is_neighbor (rc : ℚ) (p q : Particle) : Bool :=
  decide (0 ≤ rc + p.radius + q.radius ∧
    dist2 p.position q.position ≤ (rc + p.radius + q.radius) ^ 2)

/-- Rust itertools `tuple_combinations::<(_, _)>()` on a list: all pairs of
elements at positions `i < j`, in lexicographic position order. -/
def tuple_combinations : List α → List (α × α)
  | [] => []
  | x :: xs => xs.map (fun y => (x, y)) ++ tuple_combinations xs

/-- The accumulation loop shared by both finders: fold over candidate pairs,
adding each pair that satisfies the distance predicate. -/
def foldPairs (rc : ℚ) (m : NeighborMap) (l : List (Particle × Particle)) :
    NeighborMap :=
  l.foldl (fun m' pq =>
    if is_neighbor rc pq.1 pq.2 then add_pair m' pq.1.id pq.2.id else m') m

/-- Rust `ParticlesData::generate_neighbor_map`: iterate
`tuple_combinations`, test the distance predicate, `add_pair` on success. -/
def ParticlesData.generate_neighbor_map (d : ParticlesData) : NeighborMap :=
  foldPairs d.r_c [] (tuple_combinations d.particles)

/-- One `Display` line of an entry, before rendering: the key followed by the
stored neighbor ids. -/
def displayLines (m : NeighborMap) : List (List ID) :=
  m.map (fun e => e.1 :: e.2)

/-- Rust `iter::once(particle).chain(neighbors).map(to_string).join(" ")`. -/
def fmtEntry (e : ID × List ID) : String :=
  String.intercalate " " ((e.1 :: e.2).map toString)

/-- Rust `impl Display for NeighborMap`: for each entry, the joined line then
a newline. -/
def fmtNeighborMap (m : NeighborMap) : String :=
  m.foldl (fun acc e => acc ++ (fmtEntry e ++ "\n")) ""

/-- The keys of the map, in entry order. -/
def keysOf (m : NeighborMap) : List ID := m.map Prod.fst

/-- Two candidate pairs denote different unordered id pairs. -/
def idPairNe (pq pq' : Particle × Particle) : Prop :=
  ¬ ((pq'.1.id = pq.1.id ∧ pq'.2.id = pq.2.id) ∨
     (pq'.1.id = pq.2.id ∧ pq'.2.id = pq.1.id))

/-! ### The spatial cell-index engine (spec-modelled)

The `cim` crate (`CimNeighborFinder::find_neighbors`, `SystemInfo`) is not
among the sources; the definitions below are modelled from the
specification: cell side `L / M`, binning by `(⌊x/c⌋, ⌊y/c⌋)` (taken modulo
`M` when cyclic), the half-stencil `(1,0), (0,1), (1,1), (-1,1)` applied to
every grid cell with out-of-range target cells skipped in the non-cyclic
case, and the same inclusive distance predicate as the brute-force oracle.
-/

/-- Modelled from the spec: the configuration of the cell-index engine
(`cyclic`, `interaction_radius`, `space_length`, `grid_size`). -/
structure SystemInfo where
  cyclic : Bool
  interaction_radius : ℚ
  space_length : ℚ
  grid_size : Nat
  deriving DecidableEq, Repr

/-- Modelled from the spec: cell side `c = space_length / grid_size`. -/
def cellSide (si : SystemInfo) : ℚ := si.space_length / si.grid_size

/-- Modelled from the spec: cell coordinates `(⌊x/c⌋, ⌊y/c⌋)`. -/
def cellOf (cs : ℚ) (p : Particle) : ℤ × ℤ :=
  (⌊p.position.1 / cs⌋, ⌊p.position.2 / cs⌋)

/-- Modelled from the spec: toroidal cell indexing (coordinates taken
modulo `grid_size` in each axis). -/
def wrapCell (M : Nat) (c : ℤ × ℤ) : ℤ × ℤ := (c.1 % (M : ℤ), c.2 % (M : ℤ))

/-- Modelled from the spec: the cell a particle is binned into. -/
def binOf (si : SystemInfo) (p : Particle) : ℤ × ℤ :=
  if si.cyclic then wrapCell si.grid_size (cellOf (cellSide si) p)
  else cellOf (cellSide si) p

/-- Modelled from the spec: a cell coordinate lies inside `[0, M)²`. -/
def inRange (M : Nat) (c : ℤ × ℤ) : Bool :=
  decide (0 ≤ c.1 ∧ c.1 < (M : ℤ) ∧ 0 ≤ c.2 ∧ c.2 < (M : ℤ))

/-- Modelled from the spec: the fixed half-stencil of directional offsets
(right, up, up-right, up-left). -/
def stencil : List (ℤ × ℤ) := [(1, 0), (0, 1), (1, 1), (-1, 1)]

/-- Modelled from the spec: the bucket of particles binned into cell `c`. -/
def bucket (si : SystemInfo) (ps : List Particle) (c : ℤ × ℤ) : List Particle :=
  ps.filter (fun p => binOf si p = c)

/-- All grid cells `[0, M)²`. -/
def allCells (M : Nat) : List (ℤ × ℤ) :=
  (List.range M).flatMap
    (fun (i : Nat) => (List.range M).map (fun (j : Nat) => ((i : ℤ), (j : ℤ))))

/-- Modelled from the spec: the candidate pairs examined by the engine —
for every grid cell, all intra-cell combinations plus, for each stencil
offset, all pairs against the offset cell (wrapped when cyclic, skipped
when out of range otherwise). -/
def cimCandidates (si : SystemInfo) (ps : List Particle) :
    List (Particle × Particle) :=
  (allCells si.grid_size).flatMap (fun c =>
    tuple_combinations (bucket si ps c) ++
      stencil.flatMap (fun o =>
        if si.cyclic then
          (bucket si ps c).flatMap (fun p =>
            (bucket si ps (wrapCell si.grid_size (c.1 + o.1, c.2 + o.2))).map
              (fun q => (p, q)))
        else if inRange si.grid_size (c.1 + o.1, c.2 + o.2) then
          (bucket si ps c).flatMap (fun p =>
            (bucket si ps (c.1 + o.1, c.2 + o.2)).map (fun q => (p, q)))
        else []))

/-- Modelled from the spec: `CimNeighborFinder::find_neighbors` — test the
distance predicate on every candidate pair and accumulate via `add_pair`. -/
def find_neighbors (si : SystemInfo) (ps : List Particle) : NeighborMap :=
  foldPairs si.interaction_radius [] (cimCandidates si ps)

/-! ### Basic lemmas about the map operations -/

theorem get_pushEntry (m : NeighborMap) (k v i : ID) :
    get_neighbors (pushEntry m k v) i =
      if i = k then get_neighbors m k ++ [v] else get_neighbors m i := by
  induction m with
  | nil =>
    by_cases h : i = k
    · subst h; simp [pushEntry, get_neighbors]
    · simp [pushEntry, get_neighbors, h, Ne.symm h]
  | cons e rest ih =>
    obtain ⟨k', ns⟩ := e
    by_cases hk : k' = k
    · subst hk
      by_cases hi : i = k'
      · subst hi; simp [pushEntry, get_neighbors]
      · simp [pushEntry, get_neighbors, hi, Ne.symm hi]
    · by_cases hi : i = k'
      · subst hi
        simp [pushEntry, get_neighbors, hk, Ne.symm hk]
      · simp [pushEntry, get_neighbors, hk, Ne.symm hk, hi, Ne.symm hi, ih]

theorem get_add_pair (m : NeighborMap) (a b i : ID) :
    get_neighbors (add_pair m a b) i =
      get_neighbors m i ++ (if i = a then [b] else []) ++
        (if i = b then [a] else []) := by
  simp only [add_pair, get_pushEntry]
  by_cases hb : i = b
  · by_cases ha : i = a
    · have hba : b = a := hb.symm.trans ha
      simp [ha, hb, hba]
    · have hba : ¬ b = a := fun h => ha (hb.trans h)
      simp [ha, hb, hba]
  · by_cases ha : i = a
    · have hab : ¬ a = b := fun h => hb (ha.trans h)
      simp [ha, hb, hab, Ne.symm hab]
    · simp [ha, hb]

theorem mem_get_add_pair (m : NeighborMap) (a b i j : ID) :
    j ∈ get_neighbors (add_pair m a b) i ↔
      j ∈ get_neighbors m i ∨ (i = a ∧ j = b) ∨ (i = b ∧ j = a) := by
  rw [get_add_pair]
  by_cases ha : i = a <;> by_cases hb : i = b <;>
    simp [ha, hb, or_comm, or_assoc, or_left_comm, eq_comm]

/-- Membership after folding the candidate-pair loop: `j` is a recorded
neighbor of `i` iff it was already one, or some candidate pair passing the
distance predicate carries the ids `(i, j)` in one of the two orders. -/
theorem mem_get_foldPairs (rc : ℚ) (l : List (Particle × Particle)) :
    ∀ (m : NeighborMap) (i j : ID),
      j ∈ get_neighbors (foldPairs rc m l) i ↔
        j ∈ get_neighbors m i ∨
          ∃ pq ∈ l, is_neighbor rc pq.1 pq.2 = true ∧
            ((pq.1.id = i ∧ pq.2.id = j) ∨ (pq.1.id = j ∧ pq.2.id = i)) := by
  induction l with
  | nil => simp [foldPairs]
  | cons pq₀ l ih =>
    intro m i j
    have step : foldPairs rc m (pq₀ :: l) =
        foldPairs rc
          (if is_neighbor rc pq₀.1 pq₀.2 then add_pair m pq₀.1.id pq₀.2.id
            else m) l := by
      simp [foldPairs]
    rw [step, ih]
    by_cases hp : is_neighbor rc pq₀.1 pq₀.2
    · simp only [hp, if_true, mem_get_add_pair]
      constructor
      · rintro (((h | ⟨h1, h2⟩ | ⟨h1, h2⟩) | ⟨pq, hpq, hn, hor⟩))
        · exact Or.inl h
        · exact Or.inr ⟨pq₀, by simp, hp, Or.inl ⟨h1.symm, h2.symm⟩⟩
        · exact Or.inr ⟨pq₀, by simp, hp, Or.inr ⟨h2.symm, h1.symm⟩⟩
        · exact Or.inr ⟨pq, by simp [hpq], hn, hor⟩
      · rintro (h | ⟨pq, hpq, hn, hor⟩)
        · exact Or.inl (Or.inl h)
        · rcases List.mem_cons.mp hpq with h0 | hmem
          · subst h0
            rcases hor with ⟨h1, h2⟩ | ⟨h1, h2⟩
            · exact Or.inl (Or.inr (Or.inl ⟨h1.symm, h2.symm⟩))
            · exact Or.inl (Or.inr (Or.inr ⟨h2.symm, h1.symm⟩))
          · exact Or.inr ⟨pq, hmem, hn, hor⟩
    · simp only [hp, if_false]
      constructor
      · rintro (h | ⟨pq, hpq, hn, hor⟩)
        · exact Or.inl h
        · exact Or.inr ⟨pq, by simp [hpq], hn, hor⟩
      · rintro (h | ⟨pq, hpq, hn, hor⟩)
        · exact Or.inl h
        · rcases List.mem_cons.mp hpq with h0 | hmem
          · subst h0; exact absurd hn (by simpa using hp)
          · exact Or.inr ⟨pq, hmem, hn, hor⟩

theorem mem_generate_aux (d : ParticlesData) (i j : ID) :
    pairMem d.generate_neighbor_map i j ↔
      ∃ pq ∈ tuple_combinations d.particles,
        is_neighbor d.r_c pq.1 pq.2 = true ∧
          ((pq.1.id = i ∧ pq.2.id = j) ∨ (pq.1.id = j ∧ pq.2.id = i)) := by
  unfold pairMem ParticlesData.generate_neighbor_map
  rw [mem_get_foldPairs]
  simp [get_neighbors]

/-! ### Lemmas about `tuple_combinations` -/

theorem mem_tuple_combinations {l : List α} {p q : α} :
    (p, q) ∈ tuple_combinations l ↔
      ∃ l1 l2, l = l1 ++ p :: l2 ∧ q ∈ l2 := by
  induction l with
  | nil => simp [tuple_combinations]
  | cons x xs ih =>
    simp only [tuple_combinations, List.mem_append, List.mem_map, ih]
    constructor
    · rintro (⟨y, hy, he⟩ | ⟨l1, l2, rfl, hq⟩)
      · simp only [Prod.mk.injEq] at he
        obtain ⟨rfl, rfl⟩ := he
        exact ⟨[], xs, rfl, hy⟩
      · exact ⟨x :: l1, l2, rfl, hq⟩
    · rintro ⟨l1, l2, hl, hq⟩
      cases l1 with
      | nil =>
        simp only [List.nil_append, List.cons.injEq] at hl
        obtain ⟨rfl, rfl⟩ := hl
        exact Or.inl ⟨q, hq, rfl⟩
      | cons z l1 =>
        simp only [List.cons_append, List.cons.injEq] at hl
        obtain ⟨rfl, rfl⟩ := hl
        exact Or.inr ⟨l1, l2, rfl, hq⟩

theorem tuple_combinations_subset {l : List α} {p q : α}
    (h : (p, q) ∈ tuple_combinations l) : p ∈ l ∧ q ∈ l := by
  obtain ⟨l1, l2, rfl, hq⟩ := mem_tuple_combinations.mp h
  constructor
  · simp
  · simp [hq]

theorem tuple_combinations_ne {l : List α} (hl : l.Nodup) {p q : α}
    (h : (p, q) ∈ tuple_combinations l) : p ≠ q := by
  obtain ⟨l1, l2, rfl, hq⟩ := mem_tuple_combinations.mp h
  rintro rfl
  have := List.Nodup.of_append_right hl
  rw [List.nodup_cons] at this
  exact this.1 hq

theorem tuple_combinations_complete {l : List α} {p q : α}
    (hp : p ∈ l) (hq : q ∈ l) (hne : p ≠ q) :
    (p, q) ∈ tuple_combinations l ∨ (q, p) ∈ tuple_combinations l := by
  induction l with
  | nil => cases hp
  | cons x xs ih =>
    rcases List.mem_cons.mp hp with rfl | hp'
    · rcases List.mem_cons.mp hq with rfl | hq'
      · exact absurd rfl hne
      · exact Or.inl (by simp [tuple_combinations, hq'])
    · rcases List.mem_cons.mp hq with rfl | hq'
      · exact Or.inr (by simp [tuple_combinations, hp'])
      · rcases ih hp' hq' with h | h
        · exact Or.inl (by simp [tuple_combinations, h])
        · exact Or.inr (by simp [tuple_combinations, h])

/-! ### Lemmas about the distance predicate -/

theorem dist2_comm (p q : ℚ × ℚ) : dist2 p q = dist2 q p := by
  unfold dist2; ring

theorem dist2_nonneg (p q : ℚ × ℚ) : 0 ≤ dist2 p q := by
  unfold dist2; positivity

theorem dist2_eq_zero_iff {p q : ℚ × ℚ} : dist2 p q = 0 ↔ p = q := by
  unfold dist2
  constructor
  · intro h
    have h1 : (p.1 - q.1) ^ 2 = 0 := by nlinarith [sq_nonneg (p.1 - q.1), sq_nonneg (p.2 - q.2)]
    have h2 : (p.2 - q.2) ^ 2 = 0 := by nlinarith [sq_nonneg (p.1 - q.1), sq_nonneg (p.2 - q.2)]
    have e1 : p.1 = q.1 := by have := pow_eq_zero_iff (n := 2) (by norm_num) |>.mp h1; linarith
    have e2 : p.2 = q.2 := by have := pow_eq_zero_iff (n := 2) (by norm_num) |>.mp h2; linarith
    exact Prod.ext e1 e2
  · rintro rfl; ring

theorem is_neighbor_symm (rc : ℚ) (p q : Particle) :
    is_neighbor rc p q = is_neighbor rc q p := by
  unfold is_neighbor
  rw [decide_eq_decide]
  rw [dist2_comm]
  constructor <;> intro h <;>
    [skip; skip] <;>
    · obtain ⟨h1, h2⟩ := h
      constructor <;> [linarith; nlinarith]

/-- The executable predicate agrees with the source comparison
`distance(p1, p2) - r1 - r2 ≤ r_c` stated over the reals. -/
theorem is_neighbor_iff_sqrt (rc : ℚ) (p q : Particle) :
    is_neighbor rc p q = true ↔
      Real.sqrt ((dist2 p.position q.position : ℚ) : ℝ) -
        (p.radius : ℝ) - (q.radius : ℝ) ≤ (rc : ℝ) := by
  unfold is_neighbor
  rw [decide_eq_true_eq]
  have hrw : Real.sqrt ((dist2 p.position q.position : ℚ) : ℝ) -
      (p.radius : ℝ) - (q.radius : ℝ) ≤ (rc : ℝ) ↔
      Real.sqrt ((dist2 p.position q.position : ℚ) : ℝ) ≤
        ((rc + p.radius + q.radius : ℚ) : ℝ) := by
    push_cast
    constructor <;> intro h <;> linarith
  rw [hrw, Real.sqrt_le_iff]
  constructor
  · rintro ⟨h1, h2⟩
    refine ⟨by exact_mod_cast h1, ?_⟩
    have : ((dist2 p.position q.position : ℚ) : ℝ) ≤
        ((rc + p.radius + q.radius : ℚ) : ℝ) ^ 2 := by
      push_cast
      exact_mod_cast (by push_cast; exact_mod_cast h2 :
        ((dist2 p.position q.position : ℚ) : ℝ) ≤
          (((rc + p.radius + q.radius) ^ 2 : ℚ) : ℝ))
    exact this
  · rintro ⟨h1, h2⟩
    constructor
    · exact_mod_cast h1
    · have : ((dist2 p.position q.position : ℚ) : ℝ) ≤
          (((rc + p.radius + q.radius) ^ 2 : ℚ) : ℝ) := by push_cast; push_cast at h2; linarith
      exact_mod_cast this

/-! ### Duplicate-freedom machinery -/

theorem pairwise_imp_of_mem {R S : α → α → Prop} :
    ∀ {l : List α}, (∀ a b, a ∈ l → b ∈ l → R a b → S a b) →
      l.Pairwise R → l.Pairwise S := by
  intro l
  induction l with
  | nil => intro _ _; exact List.Pairwise.nil
  | cons x xs ih =>
    intro h hp
    rcases List.pairwise_cons.mp hp with ⟨hx, hxs⟩
    refine List.pairwise_cons.mpr ⟨fun b hb => h x b (by simp) (by simp [hb]) (hx b hb), ?_⟩
    exact ih (fun a b ha hb => h a b (by simp [ha]) (by simp [hb])) hxs


theorem tc_pairwise_val {l : List α} (hl : l.Nodup) :
    List.Pairwise (fun pq pq' : α × α => pq' ≠ pq ∧ pq' ≠ (pq.2, pq.1))
      (tuple_combinations l) := by
  induction l with
  | nil => exact List.Pairwise.nil
  | cons x xs ih =>
    rcases List.nodup_cons.mp hl with ⟨hx, hxs⟩
    rw [tuple_combinations, List.pairwise_append]
    refine ⟨?_, ih hxs, ?_⟩
    · rw [List.pairwise_map]
      have hne : List.Pairwise (fun a b : α => a ≠ b) xs := hxs
      refine pairwise_imp_of_mem (l := xs) ?_ hne
      intro a b ha hb hab
      constructor
      · intro h
        simp only [Prod.mk.injEq] at h
        exact hab h.2.symm
      · intro h
        simp only [Prod.mk.injEq] at h
        exact hx (h.2 ▸ hb)
    · intro pq hpq pq' hpq'
      obtain ⟨y, hy, rfl⟩ := List.mem_map.mp hpq
      have hsub := tuple_combinations_subset hpq'
      constructor
      · intro h
        apply hx
        have : pq'.1 = x := by rw [h]
        exact this ▸ hsub.1
      · intro h
        apply hx
        have : pq'.2 = x := by rw [h]
        exact this ▸ hsub.2

theorem tc_pairwise_idPairNe {l : List Particle}
    (hids : (l.map Particle.id).Nodup) :
    List.Pairwise idPairNe (tuple_combinations l) := by
  have hl : l.Nodup := List.Nodup.of_map _ hids
  refine pairwise_imp_of_mem ?_ (tc_pairwise_val hl)
  intro pq pq' hpq hpq' hval
  have hs := tuple_combinations_subset hpq
  have hs' := tuple_combinations_subset hpq'
  rintro (⟨h1, h2⟩ | ⟨h1, h2⟩)
  · have e1 : pq'.1 = pq.1 := List.inj_on_of_nodup_map hids hs'.1 hs.1 h1
    have e2 : pq'.2 = pq.2 := List.inj_on_of_nodup_map hids hs'.2 hs.2 h2
    exact hval.1 (Prod.ext e1 e2)
  · have e1 : pq'.1 = pq.2 := List.inj_on_of_nodup_map hids hs'.1 hs.2 h1
    have e2 : pq'.2 = pq.1 := List.inj_on_of_nodup_map hids hs'.2 hs.1 h2
    exact hval.2 (Prod.ext e1 e2)

theorem nodup_get_foldPairs (rc : ℚ) :
    ∀ (l : List (Particle × Particle)) (m : NeighborMap),
      (∀ i, (get_neighbors m i).Nodup) →
      (∀ pq ∈ l, pq.1.id ≠ pq.2.id) →
      (∀ pq ∈ l, pq.2.id ∉ get_neighbors m pq.1.id ∧
        pq.1.id ∉ get_neighbors m pq.2.id) →
      List.Pairwise idPairNe l →
      ∀ i, (get_neighbors (foldPairs rc m l) i).Nodup := by
  intro l
  induction l with
  | nil => intro m h1 _ _ _ i; simpa [foldPairs] using h1 i
  | cons pq₀ l ih =>
    intro m h1 h2 h3 h4 i
    have step : foldPairs rc m (pq₀ :: l) =
        foldPairs rc
          (if is_neighbor rc pq₀.1 pq₀.2 then add_pair m pq₀.1.id pq₀.2.id
            else m) l := by
      simp [foldPairs]
    rw [step]
    rcases List.pairwise_cons.mp h4 with ⟨hhead, htail⟩
    by_cases hp : is_neighbor rc pq₀.1 pq₀.2
    · rw [if_pos hp]
      have hab : pq₀.1.id ≠ pq₀.2.id := h2 pq₀ (by simp)
      have hbn : pq₀.2.id ∉ get_neighbors m pq₀.1.id := (h3 pq₀ (by simp)).1
      have han : pq₀.1.id ∉ get_neighbors m pq₀.2.id := (h3 pq₀ (by simp)).2
      refine ih _ ?_ (fun pq h => h2 pq (by simp [h])) ?_ htail i
      · intro i'
        rw [get_add_pair]
        by_cases hia : i' = pq₀.1.id
        · have : ¬ i' = pq₀.2.id := fun h => hab (hia.symm.trans h)
          rw [if_pos hia, if_neg this, List.append_nil]
          exact List.Nodup.append (hia ▸ h1 i') (List.nodup_singleton _)
            (List.disjoint_singleton.mpr (hia ▸ hbn))
        · rw [if_neg hia]
          by_cases hib : i' = pq₀.2.id
          · rw [if_pos hib, List.append_nil]
            exact List.Nodup.append (hib ▸ h1 i') (List.nodup_singleton _)
              (List.disjoint_singleton.mpr (hib ▸ han))
          · rw [if_neg hib]
            simpa using h1 i'
      · intro pq hpq
        have h3' := h3 pq (by simp [hpq])
        have hhd := hhead pq hpq
        constructor
        · intro hmem
          rcases (mem_get_add_pair ..).mp hmem with h | ⟨e1, e2⟩ | ⟨e1, e2⟩
          · exact h3'.1 h
          · exact hhd (Or.inl ⟨e1, e2⟩)
          · exact hhd (Or.inr ⟨e1, e2⟩)
        · intro hmem
          rcases (mem_get_add_pair ..).mp hmem with h | ⟨e1, e2⟩ | ⟨e1, e2⟩
          · exact h3'.2 h
          · exact hhd (Or.inr ⟨e2, e1⟩)
          · exact hhd (Or.inl ⟨e2, e1⟩)
    · rw [if_neg hp]
      exact ih m h1 (fun pq h => h2 pq (by simp [h]))
        (fun pq h => h3 pq (by simp [h])) htail i

theorem tc_id_ne {l : List Particle} (hids : (l.map Particle.id).Nodup)
    {pq : Particle × Particle} (h : pq ∈ tuple_combinations l) :
    pq.1.id ≠ pq.2.id := by
  obtain ⟨p, q⟩ := pq
  have hs := tuple_combinations_subset h
  have hne := tuple_combinations_ne (List.Nodup.of_map _ hids) h
  exact fun he => hne (List.inj_on_of_nodup_map hids hs.1 hs.2 he)

theorem foldPairs_all_false (rc : ℚ) :
    ∀ (l : List (Particle × Particle)) (m : NeighborMap),
      (∀ pq ∈ l, is_neighbor rc pq.1 pq.2 = false) → foldPairs rc m l = m := by
  intro l
  induction l with
  | nil => intro m _; rfl
  | cons pq l ih =>
    intro m h
    have h0 : is_neighbor rc pq.1 pq.2 = false := h pq (by simp)
    have step : foldPairs rc m (pq :: l) = foldPairs rc m l := by
      simp [foldPairs, h0]
    rw [step]
    exact ih m (fun pq' h' => h pq' (by simp [h']))

/-! ### Claim theorems for the brute-force finder -/

/-- C2: with pairwise-distinct ids, `(i, j)` is in the map returned by
`generate_neighbor_map` iff the particle list holds two distinct entries
with ids `i` and `j` whose surface-to-surface distance is within the
(inclusive) cutoff; in particular a pair exactly at the cutoff is kept. -/
theorem generate_neighbor_map_iff (d : ParticlesData)
    (hids : (d.particles.map Particle.id).Nodup) (i j : ID) :
    pairMem d.generate_neighbor_map i j ↔
      ∃ p ∈ d.particles, ∃ q ∈ d.particles,
        p ≠ q ∧ p.id = i ∧ q.id = j ∧ is_neighbor d.r_c p q = true := by
  rw [mem_generate_aux]
  constructor
  · rintro ⟨pq, hpq, hn, hor⟩
    have hsub := tuple_combinations_subset hpq
    have hnodup : d.particles.Nodup := List.Nodup.of_map _ hids
    have hne := tuple_combinations_ne hnodup hpq
    rcases hor with ⟨h1, h2⟩ | ⟨h1, h2⟩
    · exact ⟨pq.1, hsub.1, pq.2, hsub.2, hne, h1, h2, hn⟩
    · exact ⟨pq.2, hsub.2, pq.1, hsub.1, Ne.symm hne, h2, h1,
        (is_neighbor_symm d.r_c pq.1 pq.2) ▸ hn⟩
  · rintro ⟨p, hp, q, hq, hne, rfl, rfl, hn⟩
    rcases tuple_combinations_complete hp hq hne with h | h
    · exact ⟨(p, q), h, hn, Or.inl ⟨rfl, rfl⟩⟩
    · exact ⟨(q, p), h, (is_neighbor_symm d.r_c q p) ▸ hn, Or.inr ⟨rfl, rfl⟩⟩

theorem generate_neighbor_map_iff_witness :
    pairMem (ParticlesData.generate_neighbor_map
      ⟨2, 10, 10, 1, [⟨0, (0, 0), 0⟩, ⟨1, (1/2, 0), 0⟩]⟩) 0 1 :=
  (generate_neighbor_map_iff
      ⟨2, 10, 10, 1, [⟨0, (0, 0), 0⟩, ⟨1, (1/2, 0), 0⟩]⟩
      (by decide) 0 1).mpr
    ⟨⟨0, (0, 0), 0⟩, by simp, ⟨1, (1/2, 0), 0⟩, by simp,
      of_decide_eq_true (by with_unfolding_all rfl), rfl, rfl,
      of_decide_eq_true (by with_unfolding_all rfl)⟩

/-- C3: the map built by `generate_neighbor_map` is symmetric, because
`add_pair` always records both directions. -/
theorem neighbor_map_symm (d : ParticlesData) (i j : ID) :
    pairMem d.generate_neighbor_map i j ↔ pairMem d.generate_neighbor_map j i := by
  rw [mem_generate_aux, mem_generate_aux]
  constructor <;> rintro ⟨pq, h1, h2, h3⟩ <;> exact ⟨pq, h1, h2, h3.symm⟩

/-- C4: with pairwise-distinct ids the map has no self-loops. -/
theorem no_self_loops (d : ParticlesData)
    (hids : (d.particles.map Particle.id).Nodup) (i : ID) :
    ¬ pairMem d.generate_neighbor_map i i := by
  rw [mem_generate_aux]
  rintro ⟨pq, hpq, _, hor⟩
  have hne := tc_id_ne hids hpq
  rcases hor with ⟨h1, h2⟩ | ⟨h1, h2⟩ <;> exact hne (h1.trans h2.symm)

theorem no_self_loops_witness :
    ¬ pairMem (ParticlesData.generate_neighbor_map
      ⟨2, 10, 10, 1, [⟨0, (0, 0), 0⟩, ⟨1, (1, 0), 0⟩]⟩) 0 0 :=
  no_self_loops ⟨2, 10, 10, 1, [⟨0, (0, 0), 0⟩, ⟨1, (1, 0), 0⟩]⟩ (by decide) 0

/-- C5: with pairwise-distinct ids every neighbor list of the map returned
by `generate_neighbor_map` is duplicate-free. -/
theorem neighbor_lists_nodup (d : ParticlesData)
    (hids : (d.particles.map Particle.id).Nodup) (i : ID) :
    (get_neighbors d.generate_neighbor_map i).Nodup := by
  unfold ParticlesData.generate_neighbor_map
  refine nodup_get_foldPairs d.r_c (tuple_combinations d.particles) [] ?_ ?_ ?_ ?_ i
  · intro i'; simp [get_neighbors]
  · intro pq h; exact tc_id_ne hids h
  · intro pq h; simp [get_neighbors]
  · exact tc_pairwise_idPairNe hids

theorem neighbor_lists_nodup_witness :
    (get_neighbors (ParticlesData.generate_neighbor_map
      ⟨2, 10, 10, 1, [⟨0, (0, 0), 0⟩, ⟨1, (1, 0), 0⟩]⟩) 0).Nodup :=
  neighbor_lists_nodup ⟨2, 10, 10, 1, [⟨0, (0, 0), 0⟩, ⟨1, (1, 0), 0⟩]⟩
    (by decide) 0

/-- C6 counterexample: `add_pair` is not idempotent.  After `add_pair 0 1`
the pair is present, yet re-adding it changes the map (both neighbor vectors
get a duplicate entry). -/
theorem add_pair_readd_changes_cex :
    pairMem (add_pair ([] : NeighborMap) 0 1) 0 1 ∧
      add_pair (add_pair ([] : NeighborMap) 0 1) 0 1 ≠
        add_pair ([] : NeighborMap) 0 1 := by decide

/-- C6 amended: `add_pair a b` (for `a ≠ b`) unconditionally appends `b` to
`a`'s vector and `a` to `b`'s vector, leaving every other entry unchanged;
re-adding an existing pair therefore appends duplicates instead of being a
no-op. -/
theorem add_pair_appends (m : NeighborMap) (a b : ID) (h : a ≠ b) :
    get_neighbors (add_pair m a b) a = get_neighbors m a ++ [b] ∧
    get_neighbors (add_pair m a b) b = get_neighbors m b ++ [a] ∧
    ∀ i, i ≠ a → i ≠ b → get_neighbors (add_pair m a b) i = get_neighbors m i := by
  refine ⟨?_, ?_, ?_⟩
  · rw [get_add_pair, if_pos rfl, if_neg h, List.append_nil]
  · rw [get_add_pair, if_neg (Ne.symm h), if_pos rfl, List.append_nil]
  · intro i hia hib
    rw [get_add_pair, if_neg hia, if_neg hib, List.append_nil, List.append_nil]

theorem add_pair_appends_witness :
    get_neighbors (add_pair (add_pair ([] : NeighborMap) 0 1) 0 1) 0 =
      get_neighbors (add_pair ([] : NeighborMap) 0 1) 0 ++ [1] :=
  (add_pair_appends (add_pair [] 0 1) 0 1 (by decide)).1

/-- C7 counterexample: a non-positive cutoff does not force an empty map.
Two coincident zero-radius particles with `r_c = 0` satisfy the inclusive
predicate (`0 - 0 - 0 ≤ 0`), so the map is non-empty. -/
theorem degenerate_cutoff_nonempty_cex :
    (ParticlesData.r_c ⟨2, 10, 10, 0, [⟨0, (1, 1), 0⟩, ⟨1, (1, 1), 0⟩]⟩ ≤ 0) ∧
    (∀ p ∈ ParticlesData.particles ⟨2, 10, 10, 0, [⟨0, (1, 1), 0⟩, ⟨1, (1, 1), 0⟩]⟩,
      0 ≤ p.radius) ∧
    ParticlesData.generate_neighbor_map
      ⟨2, 10, 10, 0, [⟨0, (1, 1), 0⟩, ⟨1, (1, 1), 0⟩]⟩ ≠ [] :=
  of_decide_eq_true (by with_unfolding_all rfl)

/-- C7 amended: `generate_neighbor_map` is total (never an error), and the
map is empty for the empty particle list, as well as for a non-positive
cutoff whenever all radii are zero and no two particles coincide (the
boundary case `distance = r_c` is exactly what the counterexample exhibits). -/
theorem degenerate_cutoff_empty (d : ParticlesData)
    (h : d.particles = [] ∨
      ((∀ p ∈ d.particles, p.radius = 0) ∧ d.r_c ≤ 0 ∧
        (d.particles.map Particle.position).Nodup)) :
    d.generate_neighbor_map = [] := by
  unfold ParticlesData.generate_neighbor_map
  rcases h with h | ⟨hrad, hrc, hpos⟩
  · rw [h]; rfl
  · apply foldPairs_all_false
    intro pq hpq
    have hs := tuple_combinations_subset hpq
    have hlnd : d.particles.Nodup := List.Nodup.of_map _ hpos
    have hne := tuple_combinations_ne hlnd hpq
    have hposne : pq.1.position ≠ pq.2.position :=
      fun he => hne (List.inj_on_of_nodup_map hpos hs.1 hs.2 he)
    have h1 : pq.1.radius = 0 := hrad _ hs.1
    have h2 : pq.2.radius = 0 := hrad _ hs.2
    unfold is_neighbor
    rw [decide_eq_false_iff_not]
    rintro ⟨hge, hle⟩
    rw [h1, h2, add_zero, add_zero] at hge hle
    have hrc0 : d.r_c = 0 := le_antisymm hrc hge
    rw [hrc0] at hle
    have hz : dist2 pq.1.position pq.2.position = 0 :=
      le_antisymm (by simpa using hle) (dist2_nonneg _ _)
    exact hposne (dist2_eq_zero_iff.mp hz)

theorem degenerate_cutoff_empty_witness :
    ParticlesData.generate_neighbor_map
      ⟨2, 10, 10, -1, [⟨0, (0, 0), 0⟩, ⟨1, (5, 5), 0⟩]⟩ = [] :=
  degenerate_cutoff_empty ⟨2, 10, 10, -1, [⟨0, (0, 0), 0⟩, ⟨1, (5, 5), 0⟩]⟩
    (Or.inr ⟨of_decide_eq_true (by with_unfolding_all rfl),
      of_decide_eq_true (by with_unfolding_all rfl),
      of_decide_eq_true (by with_unfolding_all rfl)⟩)

/-- C9: the brute-force finder reads only `particles` and `r_c`; the fields
`n`, `l` and `m` never influence the result. -/
theorem generate_ignores_n_l_m (d1 d2 : ParticlesData)
    (hp : d1.particles = d2.particles) (hr : d1.r_c = d2.r_c) :
    d1.generate_neighbor_map = d2.generate_neighbor_map := by
  unfold ParticlesData.generate_neighbor_map
  rw [hp, hr]

theorem generate_ignores_n_l_m_witness :
    ParticlesData.generate_neighbor_map ⟨0, 0, 0, 1, [⟨0, (0, 0), 0⟩]⟩ =
      ParticlesData.generate_neighbor_map ⟨5, 7, 3, 1, [⟨0, (0, 0), 0⟩]⟩ :=
  generate_ignores_n_l_m ⟨0, 0, 0, 1, [⟨0, (0, 0), 0⟩]⟩
    ⟨5, 7, 3, 1, [⟨0, (0, 0), 0⟩]⟩ rfl rfl

/-- C10: `add_pair` has no equal-argument check: `add_pair a a` appends `a`
to `a`'s own vector twice.  The no-self-loop invariant of the generated map
relies on `generate_neighbor_map` never producing a candidate pair with
equal ids, which holds whenever the particle ids are pairwise distinct. -/
theorem add_pair_self_dup :
    (∀ (m : NeighborMap) (a : ID),
      get_neighbors (add_pair m a a) a = get_neighbors m a ++ [a, a]) ∧
    (∀ (d : ParticlesData), (d.particles.map Particle.id).Nodup →
      ∀ pq ∈ tuple_combinations d.particles, pq.1.id ≠ pq.2.id) := by
  constructor
  · intro m a
    rw [get_add_pair, if_pos rfl, List.append_assoc]
    rfl
  · intro d hids pq hpq
    exact tc_id_ne hids hpq

theorem add_pair_self_dup_witness :
    get_neighbors (add_pair ([] : NeighborMap) 3 3) 3 = [3, 3] ∧
    Particle.id ⟨0, (0, 0), 0⟩ ≠ Particle.id ⟨1, (1, 0), 0⟩ :=
  ⟨(add_pair_self_dup.1 [] 3).trans (by decide),
   add_pair_self_dup.2 ⟨2, 1, 1, 1, [⟨0, (0, 0), 0⟩, ⟨1, (1, 0), 0⟩]⟩
     (by decide) (⟨0, (0, 0), 0⟩, ⟨1, (1, 0), 0⟩)
     (of_decide_eq_true (by with_unfolding_all rfl))⟩

/-! ### Display serialization (C8) -/


theorem keysOf_pushEntry (m : NeighborMap) (k v : ID) :
    keysOf (pushEntry m k v) =
      if k ∈ keysOf m then keysOf m else keysOf m ++ [k] := by
  induction m with
  | nil => simp [pushEntry, keysOf]
  | cons e rest ih =>
    obtain ⟨k', ns⟩ := e
    by_cases hk : k' = k
    · subst hk
      simp [pushEntry, keysOf]
    · simp only [pushEntry, if_neg hk, keysOf, List.map_cons, List.mem_cons]
      have : ¬ k = k' := fun h => hk h.symm
      by_cases hmem : k ∈ keysOf rest
      · simp [keysOf] at hmem
        simp [this, hmem, keysOf] at ih ⊢
        rw [ih]
      · simp [keysOf] at hmem
        simp [this, hmem, keysOf] at ih ⊢
        rw [ih]

theorem nodup_keys_pushEntry {m : NeighborMap} (h : (keysOf m).Nodup)
    (k v : ID) : (keysOf (pushEntry m k v)).Nodup := by
  rw [keysOf_pushEntry]
  by_cases hmem : k ∈ keysOf m
  · simpa [hmem] using h
  · simpa [hmem] using
      List.Nodup.append h (List.nodup_singleton k) (List.disjoint_singleton.mpr hmem)

theorem nonempty_entries_pushEntry {m : NeighborMap}
    (h : ∀ e ∈ m, e.2 ≠ []) (k v : ID) :
    ∀ e ∈ pushEntry m k v, e.2 ≠ [] := by
  induction m with
  | nil =>
    intro e he
    have he' : e = (k, [v]) := by simpa [pushEntry] using he
    rw [he']
    simp
  | cons e₀ rest ih =>
    obtain ⟨k', ns⟩ := e₀
    intro e he
    by_cases hk : k' = k
    · rw [show pushEntry ((k', ns) :: rest) k v = (k', ns ++ [v]) :: rest by
        simp [pushEntry, hk]] at he
      rcases List.mem_cons.mp he with he' | he'
      · rw [he']; simp
      · exact h e (by simp [he'])
    · rw [show pushEntry ((k', ns) :: rest) k v =
          (k', ns) :: pushEntry rest k v by simp [pushEntry, hk]] at he
      rcases List.mem_cons.mp he with he' | he'
      · rw [he']
        exact h (k', ns) (by simp)
      · exact ih (fun e' he'' => h e' (by simp [he''])) e he'

theorem invariants_foldPairs (rc : ℚ) :
    ∀ (l : List (Particle × Particle)) (m : NeighborMap),
      (keysOf m).Nodup → (∀ e ∈ m, e.2 ≠ []) →
      (keysOf (foldPairs rc m l)).Nodup ∧
        ∀ e ∈ foldPairs rc m l, e.2 ≠ [] := by
  intro l
  induction l with
  | nil => intro m h1 h2; exact ⟨h1, h2⟩
  | cons pq l ih =>
    intro m h1 h2
    have step : foldPairs rc m (pq :: l) =
        foldPairs rc
          (if is_neighbor rc pq.1 pq.2 then add_pair m pq.1.id pq.2.id
            else m) l := by
      simp [foldPairs]
    rw [step]
    by_cases hp : is_neighbor rc pq.1 pq.2
    · rw [if_pos hp]
      exact ih _ (nodup_keys_pushEntry (nodup_keys_pushEntry h1 _ _) _ _)
        (nonempty_entries_pushEntry (nonempty_entries_pushEntry h2 _ _) _ _)
    · rw [if_neg hp]
      exact ih m h1 h2

theorem get_eq_nil_of_not_mem_keys {m : NeighborMap} {i : ID}
    (h : i ∉ keysOf m) : get_neighbors m i = [] := by
  induction m with
  | nil => rfl
  | cons e rest ih =>
    obtain ⟨k, ns⟩ := e
    simp only [keysOf, List.map_cons, List.mem_cons] at h
    push_neg at h
    have : ¬ k = i := fun he => h.1 he.symm
    simpa [get_neighbors, this] using ih (by simpa [keysOf] using h.2)

theorem displayLines_filter :
    ∀ (m : NeighborMap), (keysOf m).Nodup → (∀ e ∈ m, e.2 ≠ []) →
      ∀ i, (displayLines m).filter (fun l => l.head? = some i) =
        if get_neighbors m i = [] then [] else [i :: get_neighbors m i] := by
  intro m
  induction m with
  | nil => intro _ _ i; simp [displayLines, get_neighbors]
  | cons e rest ih =>
    obtain ⟨k, ns⟩ := e
    intro hk hne i
    have hk' : k ∉ keysOf rest ∧ (keysOf rest).Nodup := by
      simpa [keysOf] using hk
    have hne' : ∀ e ∈ rest, e.2 ≠ [] := fun e he => hne e (by simp [he])
    have hns : ns ≠ [] := by simpa using hne (k, ns) (by simp)
    have hdl : displayLines ((k, ns) :: rest) = (k :: ns) :: displayLines rest :=
      rfl
    have hihx := ih hk'.2 hne'
    rw [hdl, List.filter_cons]
    by_cases hik : k = i
    · subst hik
      have hrest : get_neighbors rest k = [] := get_eq_nil_of_not_mem_keys hk'.1
      have hfil : (displayLines rest).filter (fun l => l.head? = some k) = [] := by
        rw [hihx k, hrest]
        simp
      have hget : get_neighbors ((k, ns) :: rest) k = ns := by
        simp [get_neighbors]
      rw [hfil, hget]
      simp [hns]
    · have hcond : ¬ (decide ((k :: ns).head? = some i) = true) := by
        simp [hik]
      rw [if_neg hcond, hihx i]
      have hget : get_neighbors ((k, ns) :: rest) i = get_neighbors rest i := by
        simp [get_neighbors, hik]
      rw [hget]

/-- C8: the `Display` serialization emits, per map entry, one line holding
the particle id followed by its stored neighbor ids joined by single spaces
and terminated by a newline; every entry of a generated map has at least one
neighbor, and a particle id heads exactly one line when it has neighbors and
none otherwise (entry order itself is unspecified). -/
theorem display_format (d : ParticlesData) :
    (fmtNeighborMap d.generate_neighbor_map =
      (displayLines d.generate_neighbor_map).foldl
        (fun acc l =>
          acc ++ (String.intercalate " " (l.map toString) ++ "\n")) "") ∧
    (∀ l ∈ displayLines d.generate_neighbor_map, l.tail ≠ []) ∧
    (∀ i, (displayLines d.generate_neighbor_map).filter
        (fun l => l.head? = some i) =
      if get_neighbors d.generate_neighbor_map i = [] then []
      else [i :: get_neighbors d.generate_neighbor_map i]) := by
  have hinv := invariants_foldPairs d.r_c (tuple_combinations d.particles) []
    (by simp [keysOf]) (by simp)
  have hinv' : (keysOf d.generate_neighbor_map).Nodup ∧
      ∀ e ∈ d.generate_neighbor_map, e.2 ≠ [] := hinv
  refine ⟨?_, ?_, ?_⟩
  · unfold fmtNeighborMap displayLines
    rw [List.foldl_map]
    simp only [fmtEntry]
  · intro l hl
    obtain ⟨e, he, rfl⟩ := List.mem_map.mp hl
    simpa using hinv'.2 e he
  · exact displayLines_filter _ hinv'.1 hinv'.2

theorem display_format_witness :
    (displayLines (ParticlesData.generate_neighbor_map
      ⟨2, 10, 10, 1, [⟨0, (0, 0), 0⟩, ⟨1, (1, 0), 0⟩]⟩)).filter
        (fun l => l.head? = some 0) = [[0, 1]] := by
  rw [(display_format ⟨2, 10, 10, 1, [⟨0, (0, 0), 0⟩, ⟨1, (1, 0), 0⟩]⟩).2.2 0]
  with_unfolding_all rfl


/-! ### Lemmas about the cell-index engine -/

theorem inRange_iff {M : Nat} {c : ℤ × ℤ} :
    inRange M c = true ↔
      0 ≤ c.1 ∧ c.1 < (M : ℤ) ∧ 0 ≤ c.2 ∧ c.2 < (M : ℤ) := by
  unfold inRange
  rw [decide_eq_true_eq]

theorem mem_allCells {M : Nat} {c : ℤ × ℤ} :
    c ∈ allCells M ↔ inRange M c = true := by
  rw [inRange_iff]
  unfold allCells
  rw [List.mem_flatMap]
  constructor
  · rintro ⟨i, hi, hc⟩
    rw [List.mem_map] at hc
    obtain ⟨j, hj, rfl⟩ := hc
    rw [List.mem_range] at hi hj
    refine ⟨?_, ?_, ?_, ?_⟩ <;> simp <;> omega
  · rintro ⟨h1, h2, h3, h4⟩
    refine ⟨c.1.toNat, ?_, ?_⟩
    · rw [List.mem_range]; omega
    · rw [List.mem_map]
      refine ⟨c.2.toNat, by rw [List.mem_range]; omega, ?_⟩
      have e1 : ((c.1.toNat : ℤ)) = c.1 := Int.toNat_of_nonneg h1
      have e2 : ((c.2.toNat : ℤ)) = c.2 := Int.toNat_of_nonneg h3
      rw [e1, e2]

theorem mem_bucket {si : SystemInfo} {ps : List Particle} {c : ℤ × ℤ}
    {p : Particle} : p ∈ bucket si ps c ↔ p ∈ ps ∧ binOf si p = c := by
  unfold bucket
  rw [List.mem_filter, decide_eq_true_eq]

theorem mem_cross {a b : List Particle} {p q : Particle} :
    (p, q) ∈ a.flatMap (fun pb => b.map (fun qb => (pb, qb))) ↔
      p ∈ a ∧ q ∈ b := by
  rw [List.mem_flatMap]
  constructor
  · rintro ⟨pb, hpb, hmem⟩
    rw [List.mem_map] at hmem
    obtain ⟨qb, hqb, he⟩ := hmem
    simp only [Prod.mk.injEq] at he
    obtain ⟨rfl, rfl⟩ := he
    exact ⟨hpb, hqb⟩
  · rintro ⟨hp, hq⟩
    exact ⟨p, hp, List.mem_map.mpr ⟨q, hq, rfl⟩⟩

theorem binOf_noncyclic {si : SystemInfo} (hcy : si.cyclic = false)
    (p : Particle) : binOf si p = cellOf (cellSide si) p := by
  unfold binOf
  rw [hcy]
  simp

theorem cimCandidates_sound {si : SystemInfo} {ps : List Particle}
    (hcy : si.cyclic = false) (hnd : ps.Nodup) {pq : Particle × Particle}
    (h : pq ∈ cimCandidates si ps) :
    pq.1 ∈ ps ∧ pq.2 ∈ ps ∧ pq.1 ≠ pq.2 := by
  obtain ⟨p, q⟩ := pq
  unfold cimCandidates at h
  rw [List.mem_flatMap] at h
  obtain ⟨c, hc, h⟩ := h
  rw [List.mem_append] at h
  rcases h with h | h
  · have hs := tuple_combinations_subset h
    have hbnd : (bucket si ps c).Nodup := List.Nodup.filter _ hnd
    exact ⟨(mem_bucket.mp hs.1).1, (mem_bucket.mp hs.2).1,
      tuple_combinations_ne hbnd h⟩
  · rw [List.mem_flatMap] at h
    obtain ⟨o, ho, h⟩ := h
    rw [if_neg (show ¬ (si.cyclic = true) by simp [hcy])] at h
    by_cases hr : inRange si.grid_size (c.1 + o.1, c.2 + o.2) = true
    · rw [if_pos hr, mem_cross] at h
      obtain ⟨hp, hq⟩ := h
      have hbp := mem_bucket.mp hp
      have hbq := mem_bucket.mp hq
      refine ⟨hbp.1, hbq.1, ?_⟩
      intro he
      have he' : p = q := he
      have hcc : c = (c.1 + o.1, c.2 + o.2) := by
        conv_lhs => rw [← hbp.2, he', hbq.2]
      have h1 := congrArg Prod.fst hcc
      have h2 := congrArg Prod.snd hcc
      simp only at h1 h2
      have ho1 : o.1 = 0 ∧ o.2 = 0 := by omega
      simp only [stencil, List.mem_cons, List.not_mem_nil, or_false] at ho
      rcases ho with ho | ho | ho | ho <;> rw [ho] at ho1 <;> simp at ho1
    · rw [if_neg hr] at h
      cases h

theorem cim_cross_intro {si : SystemInfo} {ps : List Particle}
    (hcy : si.cyclic = false) {pb pt : Particle}
    (hb : pb ∈ ps) (ht : pt ∈ ps) {o : ℤ × ℤ} (ho : o ∈ stencil)
    (hcb : inRange si.grid_size (cellOf (cellSide si) pb) = true)
    (hct : inRange si.grid_size (cellOf (cellSide si) pt) = true)
    (hoff : cellOf (cellSide si) pt =
      ((cellOf (cellSide si) pb).1 + o.1, (cellOf (cellSide si) pb).2 + o.2)) :
    (pb, pt) ∈ cimCandidates si ps := by
  unfold cimCandidates
  rw [List.mem_flatMap]
  refine ⟨cellOf (cellSide si) pb, mem_allCells.mpr hcb, ?_⟩
  rw [List.mem_append]
  right
  rw [List.mem_flatMap]
  refine ⟨o, ho, ?_⟩
  rw [if_neg (show ¬ (si.cyclic = true) by simp [hcy]), ← hoff, if_pos hct,
    mem_cross]
  exact ⟨mem_bucket.mpr ⟨hb, binOf_noncyclic hcy pb⟩,
    mem_bucket.mpr ⟨ht, binOf_noncyclic hcy pt⟩⟩

theorem cimCandidates_complete {si : SystemInfo} {ps : List Particle}
    (hcy : si.cyclic = false) {p q : Particle}
    (hp : p ∈ ps) (hq : q ∈ ps) (hne : p ≠ q)
    (hinp : inRange si.grid_size (cellOf (cellSide si) p) = true)
    (hinq : inRange si.grid_size (cellOf (cellSide si) q) = true)
    (hx1 : (cellOf (cellSide si) p).1 - (cellOf (cellSide si) q).1 ≤ 1)
    (hx2 : (cellOf (cellSide si) q).1 - (cellOf (cellSide si) p).1 ≤ 1)
    (hy1 : (cellOf (cellSide si) p).2 - (cellOf (cellSide si) q).2 ≤ 1)
    (hy2 : (cellOf (cellSide si) q).2 - (cellOf (cellSide si) p).2 ≤ 1) :
    (p, q) ∈ cimCandidates si ps ∨ (q, p) ∈ cimCandidates si ps := by
  by_cases hsame : cellOf (cellSide si) p = cellOf (cellSide si) q
  · -- same cell: intra-cell combinations
    have hbp : p ∈ bucket si ps (cellOf (cellSide si) p) :=
      mem_bucket.mpr ⟨hp, binOf_noncyclic hcy p⟩
    have hbq : q ∈ bucket si ps (cellOf (cellSide si) p) :=
      mem_bucket.mpr ⟨hq, (binOf_noncyclic hcy q).trans hsame.symm⟩
    have hintra := tuple_combinations_complete hbp hbq hne
    have hcell := mem_allCells.mpr hinp
    rcases hintra with h | h
    · left
      unfold cimCandidates
      rw [List.mem_flatMap]
      exact ⟨cellOf (cellSide si) p, hcell, List.mem_append.mpr (Or.inl h)⟩
    · right
      unfold cimCandidates
      rw [List.mem_flatMap]
      exact ⟨cellOf (cellSide si) p, hcell, List.mem_append.mpr (Or.inl h)⟩
  · -- adjacent cells: one of the eight directions, covered by the stencil
    have hd1 : (cellOf (cellSide si) q).1 = (cellOf (cellSide si) p).1 - 1 ∨
        (cellOf (cellSide si) q).1 = (cellOf (cellSide si) p).1 ∨
        (cellOf (cellSide si) q).1 = (cellOf (cellSide si) p).1 + 1 := by omega
    have hd2 : (cellOf (cellSide si) q).2 = (cellOf (cellSide si) p).2 - 1 ∨
        (cellOf (cellSide si) q).2 = (cellOf (cellSide si) p).2 ∨
        (cellOf (cellSide si) q).2 = (cellOf (cellSide si) p).2 + 1 := by omega
    rcases hd1 with e1 | e1 | e1 <;> rcases hd2 with e2 | e2 | e2
    · -- q at (-1, -1): base q, offset (1, 1)
      refine Or.inr (cim_cross_intro (o := ((1 : ℤ), (1 : ℤ))) hcy hq hp
        (by simp [stencil]) hinq hinp (Prod.ext ?_ ?_)) <;> dsimp only <;> omega
    · -- q at (-1, 0): base q, offset (1, 0)
      refine Or.inr (cim_cross_intro (o := ((1 : ℤ), (0 : ℤ))) hcy hq hp
        (by simp [stencil]) hinq hinp (Prod.ext ?_ ?_)) <;> dsimp only <;> omega
    · -- q at (-1, +1): base p, offset (-1, 1)
      refine Or.inl (cim_cross_intro (o := ((-1 : ℤ), (1 : ℤ))) hcy hp hq
        (by simp [stencil]) hinp hinq (Prod.ext ?_ ?_)) <;> dsimp only <;> omega
    · -- q at (0, -1): base q, offset (0, 1)
      refine Or.inr (cim_cross_intro (o := ((0 : ℤ), (1 : ℤ))) hcy hq hp
        (by simp [stencil]) hinq hinp (Prod.ext ?_ ?_)) <;> dsimp only <;> omega
    · -- q at (0, 0): contradiction with distinct cells
      exact absurd (Prod.ext e1.symm e2.symm) hsame
    · -- q at (0, +1): base p, offset (0, 1)
      refine Or.inl (cim_cross_intro (o := ((0 : ℤ), (1 : ℤ))) hcy hp hq
        (by simp [stencil]) hinp hinq (Prod.ext ?_ ?_)) <;> dsimp only <;> omega
    · -- q at (+1, -1): base q, offset (-1, 1)
      refine Or.inr (cim_cross_intro (o := ((-1 : ℤ), (1 : ℤ))) hcy hq hp
        (by simp [stencil]) hinq hinp (Prod.ext ?_ ?_)) <;> dsimp only <;> omega
    · -- q at (+1, 0): base p, offset (1, 0)
      refine Or.inl (cim_cross_intro (o := ((1 : ℤ), (0 : ℤ))) hcy hp hq
        (by simp [stencil]) hinp hinq (Prod.ext ?_ ?_)) <;> dsimp only <;> omega
    · -- q at (+1, +1): base p, offset (1, 1)
      refine Or.inl (cim_cross_intro (o := ((1 : ℤ), (1 : ℤ))) hcy hp hq
        (by simp [stencil]) hinp hinq (Prod.ext ?_ ?_)) <;> dsimp only <;> omega

theorem floor_div_le {cs x y : ℚ} (hcs : 0 < cs) (h : x ≤ y + cs) :
    ⌊x / cs⌋ ≤ ⌊y / cs⌋ + 1 := by
  have h2 : x / cs ≤ (y + cs) / cs := by gcongr
  have h3 : (y + cs) / cs = y / cs + 1 := by field_simp
  have h4 : ⌊x / cs⌋ ≤ ⌊y / cs + 1⌋ := Int.floor_le_floor (h3 ▸ h2)
  rwa [show (y / cs + 1 : ℚ) = y / cs + ((1 : ℤ) : ℚ) by push_cast; ring,
    Int.floor_add_int] at h4

/-- A pair of zero-radius particles within the cutoff, with
`interaction_radius ≤ cell_side`, lies in cells at most one apart in each
axis. -/
theorem pred_cells_close {rc cs : ℚ} {p q : Particle} (hcs : 0 < cs)
    (hcell : rc ≤ cs) (hrp : p.radius = 0) (hrq : q.radius = 0)
    (hn : is_neighbor rc p q = true) :
    (cellOf cs p).1 - (cellOf cs q).1 ≤ 1 ∧
    (cellOf cs q).1 - (cellOf cs p).1 ≤ 1 ∧
    (cellOf cs p).2 - (cellOf cs q).2 ≤ 1 ∧
    (cellOf cs q).2 - (cellOf cs p).2 ≤ 1 := by
  unfold is_neighbor at hn
  rw [decide_eq_true_eq] at hn
  obtain ⟨hge, hle⟩ := hn
  rw [hrp, hrq, add_zero, add_zero] at hge hle
  unfold dist2 at hle
  have hdx2 : (p.position.1 - q.position.1) ^ 2 ≤ rc ^ 2 := by
    nlinarith [sq_nonneg (p.position.2 - q.position.2)]
  have hdy2 : (p.position.2 - q.position.2) ^ 2 ≤ rc ^ 2 := by
    nlinarith [sq_nonneg (p.position.1 - q.position.1)]
  have hdx := abs_le_of_sq_le_sq' hdx2 hge
  have hdy := abs_le_of_sq_le_sq' hdy2 hge
  unfold cellOf
  dsimp only
  refine ⟨?_, ?_, ?_, ?_⟩
  · have := floor_div_le hcs
      (show p.position.1 ≤ q.position.1 + cs by linarith [hdx.2])
    omega
  · have := floor_div_le hcs
      (show q.position.1 ≤ p.position.1 + cs by linarith [hdx.1])
    omega
  · have := floor_div_le hcs
      (show p.position.2 ≤ q.position.2 + cs by linarith [hdy.2])
    omega
  · have := floor_div_le hcs
      (show q.position.2 ≤ p.position.2 + cs by linarith [hdy.1])
    omega

/-- C1 amended: for point particles (all radii `0`) positioned inside the
non-cyclic domain, with `grid_size ≥ 1`, `space_length > 0`,
`cell_side ≥ interaction_radius` and pairwise-distinct ids, the
spec-modelled cell-index engine and the brute-force oracle report exactly
the same unordered neighbor pairs. -/
theorem cim_equiv_bruteforce (si : SystemInfo) (ps : List Particle)
    (hcy : si.cyclic = false) (hM : 1 ≤ si.grid_size)
    (hL : 0 < si.space_length) (hcell : si.interaction_radius ≤ cellSide si)
    (hdom : ∀ p ∈ ps, 0 ≤ p.position.1 ∧ p.position.1 < si.space_length ∧
      0 ≤ p.position.2 ∧ p.position.2 < si.space_length)
    (hrad : ∀ p ∈ ps, p.radius = 0)
    (hids : (ps.map Particle.id).Nodup) (i j : ID) :
    pairMem (find_neighbors si ps) i j ↔
      pairMem (ParticlesData.generate_neighbor_map
        ⟨ps.length, si.space_length, si.grid_size, si.interaction_radius, ps⟩)
        i j := by
  have hnd : ps.Nodup := List.Nodup.of_map _ hids
  have hM0 : (0 : ℚ) < (si.grid_size : ℚ) := by
    have h0 : (0 : ℕ) < si.grid_size := hM
    exact_mod_cast h0
  have hcs : 0 < cellSide si := div_pos hL hM0
  have hrange : ∀ p ∈ ps,
      inRange si.grid_size (cellOf (cellSide si) p) = true := by
    intro p hp
    obtain ⟨h1, h2, h3, h4⟩ := hdom p hp
    rw [inRange_iff]
    unfold cellOf
    dsimp only
    have key : ∀ x : ℚ, 0 ≤ x → x < si.space_length →
        0 ≤ ⌊x / cellSide si⌋ ∧ ⌊x / cellSide si⌋ < (si.grid_size : ℤ) := by
      intro x hx hxL
      constructor
      · exact Int.floor_nonneg.mpr (div_nonneg hx (le_of_lt hcs))
      · rw [Int.floor_lt]
        push_cast
        rw [div_lt_iff₀ hcs]
        calc x < si.space_length := hxL
          _ = (si.grid_size : ℚ) * cellSide si := by
            field_simp [cellSide]
    exact ⟨(key _ h1 h2).1, (key _ h1 h2).2, (key _ h3 h4).1, (key _ h3 h4).2⟩
  have hLc : pairMem (find_neighbors si ps) i j ↔
      ∃ pq ∈ cimCandidates si ps,
        is_neighbor si.interaction_radius pq.1 pq.2 = true ∧
          ((pq.1.id = i ∧ pq.2.id = j) ∨ (pq.1.id = j ∧ pq.2.id = i)) := by
    unfold find_neighbors pairMem
    rw [mem_get_foldPairs]
    simp [get_neighbors]
  rw [hLc, generate_neighbor_map_iff _ hids i j]
  constructor
  · rintro ⟨pq, hpq, hn, hor⟩
    obtain ⟨hp, hq, hne⟩ := cimCandidates_sound hcy hnd hpq
    rcases hor with ⟨h1, h2⟩ | ⟨h1, h2⟩
    · exact ⟨pq.1, hp, pq.2, hq, hne, h1, h2, hn⟩
    · exact ⟨pq.2, hq, pq.1, hp, Ne.symm hne, h2, h1,
        (is_neighbor_symm si.interaction_radius pq.1 pq.2) ▸ hn⟩
  · rintro ⟨p, hp, q, hq, hne, rfl, rfl, hn⟩
    have hn' : is_neighbor si.interaction_radius p q = true := hn
    have hclose := pred_cells_close hcs hcell (hrad p hp) (hrad q hq) hn'
    rcases cimCandidates_complete hcy hp hq hne (hrange p hp) (hrange q hq)
        hclose.1 hclose.2.1 hclose.2.2.1 hclose.2.2.2 with h | h
    · exact ⟨(p, q), h, hn', Or.inl ⟨rfl, rfl⟩⟩
    · exact ⟨(q, p), h, (is_neighbor_symm si.interaction_radius q p) ▸ hn',
        Or.inr ⟨rfl, rfl⟩⟩

theorem cim_equiv_bruteforce_witness :
    pairMem (find_neighbors ⟨false, 1, 4, 4⟩
      [⟨0, (1/2, 1/2), 0⟩, ⟨1, (1, 1/2), 0⟩]) 0 1 ↔
    pairMem (ParticlesData.generate_neighbor_map
      ⟨2, 4, 4, 1, [⟨0, (1/2, 1/2), 0⟩, ⟨1, (1, 1/2), 0⟩]⟩) 0 1 :=
  cim_equiv_bruteforce ⟨false, 1, 4, 4⟩ [⟨0, (1/2, 1/2), 0⟩, ⟨1, (1, 1/2), 0⟩]
    rfl (by decide) (of_decide_eq_true (by with_unfolding_all rfl))
    (of_decide_eq_true (by with_unfolding_all rfl))
    (of_decide_eq_true (by with_unfolding_all rfl))
    (of_decide_eq_true (by with_unfolding_all rfl))
    (by decide) 0 1

/-- C1 counterexample: with nonzero radii the claimed equivalence fails
even under `cell_side ≥ interaction_radius`, `cyclic = false` and in-domain
positions.  Two radius-1 particles three cells apart satisfy the distance
predicate (`3 - 1 - 1 ≤ 1`), so the oracle reports them, but the
single-ring stencil never pairs their cells. -/
theorem cim_misses_large_radius_pair_cex :
    (SystemInfo.cyclic ⟨false, 1, 4, 4⟩ = false) ∧
    (SystemInfo.interaction_radius ⟨false, 1, 4, 4⟩ ≤ cellSide ⟨false, 1, 4, 4⟩) ∧
    (∀ p ∈ [(⟨0, (1/2, 1/2), 1⟩ : Particle), ⟨1, (7/2, 1/2), 1⟩],
      0 ≤ p.position.1 ∧ p.position.1 < 4 ∧ 0 ≤ p.position.2 ∧ p.position.2 < 4) ∧
    pairMem (ParticlesData.generate_neighbor_map
      ⟨2, 4, 4, 1, [⟨0, (1/2, 1/2), 1⟩, ⟨1, (7/2, 1/2), 1⟩]⟩) 0 1 ∧
    ¬ pairMem (find_neighbors ⟨false, 1, 4, 4⟩
      [⟨0, (1/2, 1/2), 1⟩, ⟨1, (7/2, 1/2), 1⟩]) 0 1 :=
  of_decide_eq_true (by with_unfolding_all rfl)

-- sanity checks on concrete data (kernel evaluation of ℚ arithmetic)
example : is_neighbor 1 ⟨0, (0, 0), 0⟩ ⟨1, (1/2, 0), 0⟩ = true := by
  with_unfolding_all rfl

example : is_neighbor 1 ⟨0, (0, 0), 0⟩ ⟨1, (3, 0), 0⟩ = false := by
  with_unfolding_all rfl

example :
    (ParticlesData.generate_neighbor_map
      ⟨2, 10, 10, 1, [⟨0, (0, 0), 0⟩, ⟨1, (1/2, 0), 0⟩]⟩) =
      [(0, [1]), (1, [0])] := by with_unfolding_all rfl

example :
    get_neighbors (add_pair (add_pair [] 0 1) 0 1) 0 = [1, 1] := by decide

end SS
